import Mathlib

/-!
Verification of the Mycorrhizal mesh-networking stack core.

This file gives a shallow embedding of the stack's core data structures and
operations (packet codec, route table, announce forwarding, send path, data
dispatch, fragmentation/reassembly, group encryption), translated from the
Python source, and proves or refutes the frozen specification claims about
them.

Bytes are modelled as lists of naturals (each byte being a value below 256).
The SHA-256 based 8-byte payload digest and the Ed25519/ChaCha20-Poly1305
primitives live in external libraries, so they enter the embedding as
abstract parameters: a function `h8` standing for `sha256(.)[:8]`, a signing
function, and an `AEAD` structure packaging the authenticated-encryption
primitive together with its functional correctness and ciphertext-length
facts.
-/

namespace Mycorrhizal

/-- Byte strings: lists of naturals, each below 256 where it matters. -/
abbrev Bytes := List Nat

/-- All values of a byte string are actual bytes. -/
def ByteOk (b : Bytes) : Prop := ∀ x ∈ b, x < 256

instance (b : Bytes) : Decidable (ByteOk b) := by
  unfold ByteOk; infer_instance

/-- Fixed-width field packing as in struct.pack with format ns: truncate to
`n` bytes and zero-pad on the right. -/
def fixlen (n : Nat) (bs : Bytes) : Bytes :=
  bs.take n ++ List.replicate (n - bs.length) 0

/-- Big-endian u16 packing, as struct.pack with format H. -/
def u16be (n : Nat) : Bytes := [n / 256 % 256, n % 256]

/-! ### Packet codec (transport/packet.py) -/

def HEADER_SIZE : Nat := 32
def SIGNATURE_SIZE : Nat := 64
def MAX_PAYLOAD_SIZE : Nat := 65535

namespace PacketType

def DATA : Nat := 0x01
def ANNOUNCE : Nat := 0x02

end PacketType

namespace PacketFlags

def ENCRYPTED : Nat := 0x80
def SIGNED : Nat := 0x40
def PRIORITY : Nat := 0x20
def FRAGMENTED : Nat := 0x10

end PacketFlags

/-- A decoded packet; mirrors class Packet. `signature` is `none` when the
Python attribute is None. -/
structure Packet where
  packet_type : Nat
  flags : Nat
  ttl : Nat
  hop_count : Nat
  destination : Bytes
  payload : Bytes
  signature : Option Bytes
deriving Repr, DecidableEq

def Packet.is_signed (p : Packet) : Bool := p.flags &&& PacketFlags.SIGNED != 0

def Packet.is_fragmented (p : Packet) : Bool := p.flags &&& PacketFlags.FRAGMENTED != 0

/-- Packet.increment_hop: increment hop count, decrement TTL clamping at 0. -/
def Packet.increment_hop (p : Packet) : Packet :=
  { p with hop_count := p.hop_count + 1, ttl := p.ttl - 1 }

/-- Packet.is_expired: ttl has run out. -/
def Packet.is_expired (p : Packet) : Bool := p.ttl ≤ 0

/-- Packet._serialize_header, parametrised by the truncated payload digest
`h8` (standing for `sha256(.)[:8]`). -/
def serialize_header (h8 : Bytes → Bytes) (p : Packet) : Bytes :=
  [p.flags % 256, p.ttl % 256, p.hop_count % 256, p.packet_type % 256]
    ++ fixlen 16 p.destination
    ++ u16be p.payload.length
    ++ fixlen 8 (h8 p.payload)
    ++ [0, 0]

/-- Packet.to_bytes: header, payload, and the signature when the SIGNED flag
is set and the signature attribute is truthy (present and nonempty). -/
def Packet.to_bytes (h8 : Bytes → Bytes) (p : Packet) : Bytes :=
  serialize_header h8 p ++ p.payload ++
    (match p.signature with
     | some s => if p.is_signed ∧ s ≠ [] then s else []
     | none => [])

/-- Declared payload length of a raw frame: bytes 20..21, big-endian. -/
def frame_plen (b : Bytes) : Nat := 256 * b.getD 20 0 + b.getD 21 0

/-- Payload slice of a raw frame. -/
def frame_payload (b : Bytes) : Bytes := (b.drop 32).take (frame_plen b)

/-- Stored payload-hash field of a raw frame: bytes 22..29. -/
def frame_hash (b : Bytes) : Bytes := (b.drop 22).take 8

/-- Whether a raw frame's flags byte has the SIGNED bit. -/
def frame_signed (b : Bytes) : Bool := b.getD 0 0 &&& PacketFlags.SIGNED != 0

/-- Packet.from_bytes: parse a raw frame, returning none where the Python
code raises ValueError. -/
def Packet.from_bytes (h8 : Bytes → Bytes) (data : Bytes) : Option Packet :=
  if data.length < HEADER_SIZE then none
  else if data.length < HEADER_SIZE + frame_plen data then none
  else if h8 (frame_payload data) ≠ frame_hash data then none
  else if frame_signed data then
    if data.length < HEADER_SIZE + frame_plen data + SIGNATURE_SIZE then none
    else some
      { packet_type := data.getD 3 0
        flags := data.getD 0 0
        ttl := data.getD 1 0
        hop_count := data.getD 2 0
        destination := (data.drop 4).take 16
        payload := frame_payload data
        signature := some ((data.drop (HEADER_SIZE + frame_plen data)).take SIGNATURE_SIZE) }
  else some
    { packet_type := data.getD 3 0
      flags := data.getD 0 0
      ttl := data.getD 1 0
      hop_count := data.getD 2 0
      destination := (data.drop 4).take 16
      payload := frame_payload data
      signature := none }

/-- A well-formed encoded frame: genuine bytes, full header, zero reserved
field, consistent payload hash, and total length exactly header + declared
payload + a 64-byte signature iff the SIGNED flag is set (no trailing
bytes). -/
def WellFormedFrame (h8 : Bytes → Bytes) (b : Bytes) : Prop :=
  ByteOk b ∧
  32 ≤ b.length ∧
  b.getD 30 0 = 0 ∧
  b.getD 31 0 = 0 ∧
  h8 (frame_payload b) = frame_hash b ∧
  b.length = 32 + frame_plen b + (if frame_signed b then 64 else 0)

instance (h8 : Bytes → Bytes) (b : Bytes) : Decidable (WellFormedFrame h8 b) := by
  unfold WellFormedFrame; infer_instance

/-- Packet.sign: set the SIGNED flag, then sign the serialized header plus
payload with the abstract signing primitive. -/
def Packet.sign (h8 signFn : Bytes → Bytes) (p : Packet) : Packet :=
  let p1 := { p with flags := p.flags ||| PacketFlags.SIGNED }
  { p1 with signature := some (signFn (serialize_header h8 p1 ++ p1.payload)) }

/-! ### Route table (routing/route_table.py) -/

/-- A single route; timestamps are explicit natural-number clock readings. -/
structure RouteEntry where
  destination : Bytes
  next_hop : Option Bytes
  interface : Nat
  hop_count : Nat
  timestamp : Nat
deriving Repr, DecidableEq

structure RouteTable where
  max_routes : Nat
  routes : List RouteEntry
deriving Repr, DecidableEq

/-- Dictionary lookup by destination key. -/
def find_route (rt : RouteTable) (d : Bytes) : Option RouteEntry :=
  rt.routes.find? (fun e => e.destination == d)

/-- RouteTable._evict_oldest: remove the first entry attaining the minimal
timestamp; the Python guard `if oldest_dest:` skips deletion when the chosen
key is the empty (falsy) hex string. -/
def evict_oldest (routes : List RouteEntry) : List RouteEntry :=
  match routes.find? (fun e => routes.all (fun e2 => e.timestamp ≤ e2.timestamp)) with
  | some e =>
    if e.destination = [] then routes
    else routes.eraseP (fun x => x.destination == e.destination)
  | none => routes

/-- RouteTable.add_or_update at clock reading `now`. -/
def add_or_update (rt : RouteTable) (now : Nat) (destination : Bytes)
    (next_hop : Option Bytes) (interface : Nat) (hop_count : Nat) :
    Bool × RouteTable :=
  match find_route rt destination with
  | some existing =>
    if hop_count < existing.hop_count then
      (true, { rt with routes := rt.routes.map fun e =>
        if e.destination == destination then
          { e with next_hop := next_hop, interface := interface,
                   hop_count := hop_count, timestamp := now }
        else e })
    else if hop_count = existing.hop_count ∧ next_hop = existing.next_hop then
      (true, { rt with routes := rt.routes.map fun e =>
        if e.destination == destination then { e with timestamp := now } else e })
    else (false, rt)
  | none =>
    let routes :=
      if rt.max_routes ≤ rt.routes.length then evict_oldest rt.routes else rt.routes
    (true, { rt with routes :=
      routes ++ [⟨destination, next_hop, interface, hop_count, now⟩] })

/-- RouteTable.get_route: lookup with expiry of stale entries. -/
def get_route (rt : RouteTable) (now timeout : Nat) (d : Bytes) :
    Option RouteEntry × RouteTable :=
  match find_route rt d with
  | none => (none, rt)
  | some e =>
    if timeout < now - e.timestamp then
      (none, { rt with routes := rt.routes.eraseP (fun x => x.destination == d) })
    else (some e, rt)

/-! ### Physical interfaces (phycore/base.py) -/

namespace InterfaceMode

def FULL : Nat := 0x01
def GATEWAY : Nat := 0x02
def BOUNDARY : Nat := 0x03
def ACCESS_POINT : Nat := 0x04
def ROAMING : Nat := 0x05

end InterfaceMode

/-- A physical interface; `sendOk` records whether its send call reports
success, and the announce queue holds (hop_count, enqueue time, frame). -/
structure Phycore where
  online : Bool
  mode : Nat
  sendOk : Bool
  announce_queue : List (Nat × Nat × Bytes)
deriving Repr, DecidableEq

/-- Queue ordering key used by the announce queue: hop count ascending,
then enqueue time ascending. -/
def queueLe (a b : Nat × Nat × Bytes) : Bool :=
  decide (a.1 < b.1 ∨ (a.1 = b.1 ∧ a.2.1 ≤ b.2.1))

/-- Stable insertion of `x` after all already-placed entries that compare
less-or-equal to it. -/
def insertSorted (le : α → α → Bool) (x : α) : List α → List α
  | [] => [x]
  | y :: ys => if le y x then y :: insertSorted le x ys else x :: y :: ys

/-- Stable sort (the Python list.sort is stable; any stable sort by the same
key computes the same list). -/
def stableSort (le : α → α → Bool) (l : List α) : List α :=
  l.foldl (fun acc x => insertSorted le x acc) []

/-- PhycoreBase.queue_announce_for_forwarding: append the tagged frame and
re-sort the queue by (hop count, time). -/
def queue_announce_for_forwarding (pc : Phycore) (packet_bytes : Bytes)
    (hop_count now : Nat) : Phycore :=
  { pc with announce_queue :=
      stableSort queueLe (pc.announce_queue ++ [(hop_count, now, packet_bytes)]) }

/-- Map with the position index, used to model iteration over the phycore
list where one member is compared by identity. -/
def mapIdxFrom (f : Nat → α → α) : Nat → List α → List α
  | _, [] => []
  | i, a :: as => f i a :: mapIdxFrom f (i + 1) as

/-! ### Node operations (core/node.py) -/

/-- Node._forward_announce: bump the hop count, drop at max_hops, serialize
once, and enqueue on every other online interface subject to mode
filtering. `recv` is the position of the interface the frame arrived on. -/
def forward_announce (h8 : Bytes → Bytes) (max_hops now : Nat) (p : Packet)
    (phycores : List Phycore) (recv : Nat) : List Phycore :=
  let p' := { p with hop_count := p.hop_count + 1 }
  if max_hops ≤ p'.hop_count then phycores
  else
    let s := p'.to_bytes h8
    mapIdxFrom (fun i pc =>
      if i = recv ∨ pc.online = false then pc
      else if pc.mode = InterfaceMode.ACCESS_POINT then pc
      else if pc.mode = InterfaceMode.BOUNDARY ∧ 3 < p'.hop_count then pc
      else queue_announce_for_forwarding pc s p'.hop_count now) 0 phycores

/-- Node._forward_packet: bump the hop count, drop at max_hops, then send
once via the routed interface when one exists and is online. The returned
list records (interface position, transmitted frame). -/
def forward_packet (h8 : Bytes → Bytes) (max_hops now timeout : Nat)
    (rt : RouteTable) (phycores : List Phycore) (p : Packet) :
    List (Nat × Bytes) × RouteTable :=
  let p' := { p with hop_count := p.hop_count + 1 }
  if max_hops ≤ p'.hop_count then ([], rt)
  else
    match get_route rt now timeout p'.destination with
    | (some r, rt2) =>
      match phycores[r.interface]? with
      | some pc => if pc.online then ([(r.interface, p'.to_bytes h8)], rt2) else ([], rt2)
      | none => ([], rt2)
    | (none, rt2) => ([], rt2)

/-- Node._send_packet: broadcast on every online interface; succeeds when at
least one online interface reports a successful send. -/
def send_packet_all (phycores : List Phycore) (s : Bytes) :
    Bool × List (Nat × Bytes) :=
  (phycores.any (fun pc => pc.online && pc.sendOk),
   (List.range phycores.length).filterMap fun i =>
     match phycores[i]? with
     | some pc => if pc.online then some (i, s) else none
     | none => none)

/-- The DATA packet built by Node.send_data before routing. -/
def build_data_packet (h8 signFn : Bytes → Bytes) (destination payload : Bytes)
    (sgn : Bool) (flags : Nat) : Packet :=
  let packet : Packet :=
    { packet_type := PacketType.DATA, flags := flags, ttl := 32, hop_count := 0,
      destination := destination, payload := payload, signature := none }
  if sgn then packet.sign h8 signFn else packet

/-- Node.send_data: build a DATA packet, optionally sign it, then send via
the routed interface when a live route exists, falling back to broadcast
only when no route exists. Returns (success, transmissions, route table). -/
def send_data (h8 signFn : Bytes → Bytes) (now timeout : Nat)
    (rt : RouteTable) (phycores : List Phycore) (destination payload : Bytes)
    (sgn : Bool) (flags : Nat) : Bool × List (Nat × Bytes) × RouteTable :=
  let packet := build_data_packet h8 signFn destination payload sgn flags
  match get_route rt now timeout destination with
  | (some r, rt2) =>
    let s := packet.to_bytes h8
    (match phycores[r.interface]? with
     | some pc =>
       if pc.online then (pc.sendOk, [(r.interface, s)], rt2) else (false, [], rt2)
     | none => (false, [], rt2))
  | (none, rt2) =>
    let s := packet.to_bytes h8
    let res := send_packet_all phycores s
    (res.1, res.2, rt2)

/-- Where Node._handle_data_packet routes a DATA packet addressed to us. -/
inductive DataDispatch where
  | colony (id : Bytes)
  | transfer
  | callback
deriving Repr, DecidableEq

/-- Node._handle_data_packet dispatch order: fragments first, then colony
demux on the first 16 payload bytes, then the user callback. -/
def handle_data_packet (colonies : List Bytes) (p : Packet) : DataDispatch :=
  if p.is_fragmented then DataDispatch.transfer
  else if 16 ≤ p.payload.length ∧ colonies.contains (p.payload.take 16) then
    DataDispatch.colony (p.payload.take 16)
  else DataDispatch.callback

/-! ### Fragmentation (transport/fragments.py) -/

def FRAGMENT_HEADER_SIZE : Nat := 18
def FRAGMENT_DATA_SIZE : Nat := 140
def MAX_FRAGMENTS : Nat := 256
def MAX_TRANSFER_SIZE : Nat := 64 * 1024

/-- Reassembly state of one transfer; `fragments` is the index-keyed
dictionary as an insertion-ordered association list. -/
structure FragmentedTransfer where
  fragments : List (Nat × Bytes)
  is_final_received : Bool
  expected_fragments : Option Nat
deriving Repr, DecidableEq

def emptyTransfer : FragmentedTransfer := ⟨[], false, none⟩

/-- Dictionary store fragments[index] = data (replace or append). -/
def setFrag (frs : List (Nat × Bytes)) (i : Nat) (d : Bytes) : List (Nat × Bytes) :=
  if frs.any (fun e => e.1 == i) then
    frs.map (fun e => if e.1 == i then (i, d) else e)
  else frs ++ [(i, d)]

/-- Dictionary lookup fragments[index]. -/
def lookupFrag (frs : List (Nat × Bytes)) (i : Nat) : Option Bytes :=
  (frs.find? (fun e => e.1 == i)).map (fun e => e.2)

/-- FragmentedTransfer.add_fragment: an empty FINAL marker only records the
expected count; otherwise the data is stored and a FINAL flag additionally
records the expected count. -/
def add_fragment (st : FragmentedTransfer) (index : Nat) (data : Bytes)
    (is_final : Bool) : FragmentedTransfer :=
  if is_final && data.isEmpty then
    { st with is_final_received := true, expected_fragments := some (index + 1) }
  else
    let st := { st with fragments := setFrag st.fragments index data }
    if is_final then
      { st with is_final_received := true, expected_fragments := some (index + 1) }
    else st

/-- FragmentedTransfer.is_complete. -/
def is_complete (st : FragmentedTransfer) : Bool :=
  st.is_final_received && st.expected_fragments == some st.fragments.length

/-- The ascending concatenation loop of FragmentedTransfer.reassemble:
collect fragments 0..n-1, failing on a missing index. -/
def collect (frs : List (Nat × Bytes)) : Nat → Option Bytes
  | 0 => some []
  | n + 1 =>
    match collect frs n, lookupFrag frs n with
    | some acc, some d => some (acc ++ d)
    | _, _ => none

/-- FragmentedTransfer.reassemble. -/
def reassemble (st : FragmentedTransfer) : Option Bytes :=
  if is_complete st then
    match st.expected_fragments with
    | some n => collect st.fragments n
    | none => none
  else none

/-- The optional metadata prefix added by Fragmenter.fragment:
`len:u16 || meta_bytes` (metadata given here as its encoded byte form). -/
def prefixMeta (meta : Option Bytes) (data : Bytes) : Bytes :=
  match meta with
  | none => data
  | some m => u16be m.length ++ m ++ data

/-- The i-th data chunk of a (metadata-prefixed) byte stream. -/
def frag_chunk (d : Bytes) (i : Nat) : Bytes :=
  (d.drop (i * FRAGMENT_DATA_SIZE)).take FRAGMENT_DATA_SIZE

/-- Number of fragments for a (metadata-prefixed) byte stream. -/
def frag_total (d : Bytes) : Nat :=
  (d.length + FRAGMENT_DATA_SIZE - 1) / FRAGMENT_DATA_SIZE

/-- One emitted fragment: 16-byte transfer id, index byte, flags byte
(FINAL on the last fragment), then the data chunk. -/
def mkFragment (tid : Bytes) (total i : Nat) (d : Bytes) : Bytes :=
  fixlen 16 tid ++ [i % 256, if i = total - 1 then 1 else 0] ++ frag_chunk d i

/-- The full fragment list for a (metadata-prefixed) byte stream. -/
def frag_list (tid d : Bytes) : List Bytes :=
  (List.range (frag_total d)).map (fun i => mkFragment tid (frag_total d) i d)

/-- Fragmenter.fragment with the randomly derived transfer id abstracted as
the parameter `tid`; returns none where the Python code raises. -/
def fragment (tid : Bytes) (data : Bytes) (meta : Option Bytes) : Option (List Bytes) :=
  if MAX_TRANSFER_SIZE < data.length then none
  else if MAX_FRAGMENTS < frag_total (prefixMeta meta data) then none
  else some (frag_list tid (prefixMeta meta data))

/-- Fragmenter.parse_fragment: (transfer id, index, is_final, data). -/
def parse_fragment (fp : Bytes) : Option (Bytes × Nat × Bool × Bytes) :=
  if fp.length < FRAGMENT_HEADER_SIZE then none
  else some (fp.take 16, fp.getD 16 0, fp.getD 17 0 &&& 1 != 0, fp.drop 18)

/-- Receiving one fragment frame into a transfer (parse then add, the path
taken by TransferManager.handle_fragment for a given transfer). -/
def feed_fragment (st : FragmentedTransfer) (fp : Bytes) : FragmentedTransfer :=
  match parse_fragment fp with
  | some (_, idx, fin, d) => add_fragment st idx d fin
  | none => st

/-- Receiving a list of fragment frames in order. -/
def feed_fragments (st : FragmentedTransfer) (l : List Bytes) : FragmentedTransfer :=
  l.foldl feed_fragment st

/-- State of a transfer that has received exactly the data fragments with
indices `I` of the stream `d`: the stored dictionary holds chunk `i` for
each received index and nothing else, and the FINAL bookkeeping reflects
whether the last fragment has arrived. -/
def TransferInv (d : Bytes) (I : List Nat) (st : FragmentedTransfer) : Prop :=
  (st.fragments.map Prod.fst).Nodup ∧
  (∀ i, lookupFrag st.fragments i =
    if i ∈ I then some (frag_chunk d i) else none) ∧
  st.fragments.length = I.length ∧
  st.is_final_received = decide (frag_total d - 1 ∈ I) ∧
  st.expected_fragments =
    (if frag_total d - 1 ∈ I then some (frag_total d) else none)

/-! ### Group encryption (crypto/encryption.py) -/

/-- The ChaCha20-Poly1305 AEAD primitive of the backing crypto library,
abstracted: encryption and (fallible) decryption, with the library's
guarantees that decryption inverts encryption and that a ciphertext is
16 bytes (one Poly1305 tag) longer than its plaintext. -/
structure AEAD where
  enc : Bytes → Bytes → Bytes → Bytes
  dec : Bytes → Bytes → Bytes → Option Bytes
  dec_enc : ∀ k n m, dec k n (enc k n m) = some m
  enc_len : ∀ k n m, (enc k n m).length = m.length + 16

/-- encrypt_group_message with the drawn random nonce made explicit. -/
def encrypt_group_message (A : AEAD) (nonce plaintext group_key : Bytes) : Bytes :=
  nonce ++ A.enc group_key nonce plaintext

/-- decrypt_group_message: too-short inputs fail; an all-zero nonce is the
plaintext fallback marker and returns the remaining bytes unchanged;
otherwise the AEAD decrypts (none models the InvalidTag exception). -/
def decrypt_group_message (A : AEAD) (encrypted group_key : Bytes) : Option Bytes :=
  if encrypted.length < 12 then none
  else if encrypted.take 12 = List.replicate 12 0 then some (encrypted.drop 12)
  else A.dec group_key (encrypted.take 12) (encrypted.drop 12)

/-- A concrete AEAD instance used to witness theorems on explicit inputs. -/
def toyAEAD : AEAD where
  enc := fun _ _ m => m ++ List.replicate 16 0
  dec := fun _ _ c => some (c.take (c.length - 16))
  dec_enc := by
    intro k n m
    simp
  enc_len := by
    intro k n m
    simp

/-- A concrete stand-in for the truncated payload digest, used only to
witness theorems on explicit inputs (the theorems hold for every digest
function of the right length, in particular for sha256). -/
def toyH8 (b : Bytes) : Bytes :=
  [b.length % 256, 7, 7, 7, 7, 7, 7, 7]

/-- A concrete well-formed frame used by witnesses: unsigned DATA packet to
the all-zero address with empty payload, digest by toyH8. -/
def wFrame : Bytes :=
  [0, 0, 0, 1] ++ List.replicate 16 0 ++ [0, 0] ++ [0, 7, 7, 7, 7, 7, 7, 7] ++ [0, 0]

/-! ## Helper lemmas -/

theorem byte_getD_lt (b : Bytes) (hok : ByteOk b) (i : Nat) (h : i < b.length) :
    b.getD i 0 < 256 := by
  have : b.getD i 0 = b[i] := by simp [List.getD, List.getElem?_eq_getElem h]
  rw [this]
  exact hok _ (List.getElem_mem h)

theorem getD_drop_eq (l : Bytes) (n i d : Nat) :
    (l.drop n).getD i d = l.getD (n + i) d := by
  simp [List.getD, List.getElem?_drop]

theorem take_two_eq (l : Bytes) (h : 2 ≤ l.length) :
    l.take 2 = [l.getD 0 0, l.getD 1 0] := by
  rcases l with _ | ⟨a, _ | ⟨b, t⟩⟩
  · simp at h
  · simp at h
  · rfl

theorem take_four_eq (l : Bytes) (h : 4 ≤ l.length) :
    l.take 4 = [l.getD 0 0, l.getD 1 0, l.getD 2 0, l.getD 3 0] := by
  rcases l with _ | ⟨a, _ | ⟨b, _ | ⟨c, _ | ⟨d, t⟩⟩⟩⟩
  · simp at h
  · simp at h
  · simp at h
  · simp at h
  · rfl

theorem slice_split (l : Bytes) (i j k : Nat) :
    (l.drop i).take (j + k) = (l.drop i).take j ++ (l.drop (i + j)).take k := by
  rw [List.take_add, List.drop_drop]

theorem fixlen_of_length_eq (n : Nat) (bs : Bytes) (h : bs.length = n) :
    fixlen n bs = bs := by
  unfold fixlen
  rw [h, Nat.sub_self, List.replicate_zero, List.append_nil,
    List.take_of_length_le (le_of_eq h)]

theorem set_getD_self (l : Bytes) (i : Nat) (h : i < l.length) :
    l.set i (l.getD i 0) = l := by
  induction l generalizing i with
  | nil => simp at h
  | cons a t ih =>
    cases i with
    | zero => rfl
    | succ j =>
      have hred : (a :: t).set (j + 1) ((a :: t).getD (j + 1) 0) =
          a :: t.set j (t.getD j 0) := rfl
      rw [hred, ih j (by simpa using h)]

/-- The parsed header fields with an arbitrary hop-count byte re-serialize
to the original 32 header bytes with byte 2 replaced. -/
theorem serialize_header_of_frame_hop (h8 : Bytes → Bytes) (b : Bytes)
    (sig : Option Bytes) (v : Nat)
    (hok : ByteOk b) (hlen : 32 ≤ b.length)
    (h30 : b.getD 30 0 = 0) (h31 : b.getD 31 0 = 0)
    (hhash : h8 (frame_payload b) = frame_hash b)
    (hpl : 32 + frame_plen b ≤ b.length) (hv : v < 256) :
    serialize_header h8
      ⟨b.getD 3 0, b.getD 0 0, b.getD 1 0, v,
        (b.drop 4).take 16, frame_payload b, sig⟩ = (b.take 32).set 2 v := by
  have h20 : b.getD 20 0 < 256 := byte_getD_lt b hok 20 (by omega)
  have h21 : b.getD 21 0 < 256 := byte_getD_lt b hok 21 (by omega)
  have hplen : frame_plen b = 256 * b.getD 20 0 + b.getD 21 0 := rfl
  have hdest : fixlen 16 ((b.drop 4).take 16) = (b.drop 4).take 16 := by
    apply fixlen_of_length_eq
    simp
    omega
  have hpaylen : (frame_payload b).length = frame_plen b := by
    unfold frame_payload
    simp
    omega
  have hhlen : (frame_hash b).length = 8 := by
    unfold frame_hash
    simp
    omega
  rw [serialize_header]
  simp only [hpaylen, hdest, hhash, fixlen_of_length_eq 8 (frame_hash b) hhlen]
  rw [Nat.mod_eq_of_lt (byte_getD_lt b hok 0 (by omega)),
    Nat.mod_eq_of_lt (byte_getD_lt b hok 1 (by omega)),
    Nat.mod_eq_of_lt hv,
    Nat.mod_eq_of_lt (byte_getD_lt b hok 3 (by omega))]
  have hu16 : u16be (frame_plen b) = [b.getD 20 0, b.getD 21 0] := by
    unfold u16be
    rw [hplen]
    congr 1
    · omega
    · congr 1
      omega
  rw [hu16]
  have e1 : b.take 32 = b.take 4 ++ (b.drop 4).take 28 := by
    simpa using List.take_add b 4 28
  have e2 : (b.drop 4).take 28 = (b.drop 4).take 16 ++ (b.drop 20).take 12 :=
    slice_split b 4 16 12
  have e3 : (b.drop 20).take 12 = (b.drop 20).take 2 ++ (b.drop 22).take 10 :=
    slice_split b 20 2 10
  have e4 : (b.drop 22).take 10 = (b.drop 22).take 8 ++ (b.drop 30).take 2 :=
    slice_split b 22 8 2
  have e5 : b.take 4 = [b.getD 0 0, b.getD 1 0, b.getD 2 0, b.getD 3 0] :=
    take_four_eq b (by omega)
  have e6 : (b.drop 20).take 2 = [b.getD 20 0, b.getD 21 0] := by
    rw [take_two_eq (b.drop 20) (by simp; omega), getD_drop_eq, getD_drop_eq]
  have e7 : (b.drop 30).take 2 = [0, 0] := by
    rw [take_two_eq (b.drop 30) (by simp; omega), getD_drop_eq, getD_drop_eq]
    rw [show (30 + 0 = 30) from rfl, show (30 + 1 = 31) from rfl, h30, h31]
  rw [e1, e2, e3, e4, e5, e6, e7]
  rw [List.set_append]
  simp [frame_hash, List.append_assoc, List.set]

/-- The parsed header fields re-serialize to the original 32 header bytes of
a frame with zero reserved field and consistent hash. -/
theorem serialize_header_of_frame (h8 : Bytes → Bytes) (b : Bytes) (sig : Option Bytes)
    (hok : ByteOk b) (hlen : 32 ≤ b.length)
    (h30 : b.getD 30 0 = 0) (h31 : b.getD 31 0 = 0)
    (hhash : h8 (frame_payload b) = frame_hash b)
    (hpl : 32 + frame_plen b ≤ b.length) :
    serialize_header h8
      ⟨b.getD 3 0, b.getD 0 0, b.getD 1 0, b.getD 2 0,
        (b.drop 4).take 16, frame_payload b, sig⟩ = b.take 32 := by
  rw [serialize_header_of_frame_hop h8 b sig (b.getD 2 0) hok hlen h30 h31 hhash hpl
    (byte_getD_lt b hok 2 (by omega))]
  have h2 : (b.take 32).getD 2 0 = b.getD 2 0 := by
    simp [List.getD, List.getElem?_take]
  rw [← h2]
  apply set_getD_self
  simp
  omega

/-- Serialization of a packet whose signature attribute is absent. -/
theorem to_bytes_sig_none (h8 : Bytes → Bytes) (p : Packet) (hp : p.signature = none) :
    p.to_bytes h8 = serialize_header h8 p ++ p.payload := by
  rw [Packet.to_bytes, hp]
  simp

/-- Serialization of a signed packet carrying a nonempty signature. -/
theorem to_bytes_sig_some (h8 : Bytes → Bytes) (p : Packet) (s : Bytes)
    (hp : p.signature = some s) (hsgn : p.is_signed = true) (hne : s ≠ []) :
    p.to_bytes h8 = serialize_header h8 p ++ p.payload ++ s := by
  rw [Packet.to_bytes, hp]
  simp [hsgn, hne]

/-- Evaluation of Packet.from_bytes on an acceptable unsigned frame. -/
theorem from_bytes_eq_unsigned (h8 : Bytes → Bytes) (b : Bytes)
    (h1 : ¬ b.length < 32) (h2 : ¬ b.length < 32 + frame_plen b)
    (h3 : h8 (frame_payload b) = frame_hash b) (hsg : frame_signed b = false) :
    Packet.from_bytes h8 b = some
      ⟨b.getD 3 0, b.getD 0 0, b.getD 1 0, b.getD 2 0,
        (b.drop 4).take 16, frame_payload b, none⟩ := by
  rw [Packet.from_bytes]
  rw [if_neg (by simp only [HEADER_SIZE]; omega)]
  rw [if_neg (by simp only [HEADER_SIZE]; omega)]
  rw [if_neg (by simp [h3])]
  rw [hsg]
  simp

/-- Evaluation of Packet.from_bytes on an acceptable signed frame. -/
theorem from_bytes_eq_signed (h8 : Bytes → Bytes) (b : Bytes)
    (h1 : ¬ b.length < 32) (h2 : ¬ b.length < 32 + frame_plen b)
    (h3 : h8 (frame_payload b) = frame_hash b) (hsg : frame_signed b = true)
    (h5 : ¬ b.length < 32 + frame_plen b + 64) :
    Packet.from_bytes h8 b = some
      ⟨b.getD 3 0, b.getD 0 0, b.getD 1 0, b.getD 2 0,
        (b.drop 4).take 16, frame_payload b,
        some ((b.drop (32 + frame_plen b)).take 64)⟩ := by
  rw [Packet.from_bytes]
  rw [if_neg (by simp only [HEADER_SIZE]; omega)]
  rw [if_neg (by simp only [HEADER_SIZE]; omega)]
  rw [if_neg (by simp [h3])]
  rw [hsg]
  simp only [if_true, HEADER_SIZE, SIGNATURE_SIZE]
  rw [if_neg (by omega)]

/-! ## Claims -/

/-- Claim C1: for every well-formed encoded frame (reserved field zero,
consistent declared payload length and payload hash, a 64-byte signature
present iff the SIGNED flag is set, no trailing bytes), decoding with
Packet.from_bytes and re-encoding with Packet.to_bytes reproduces the frame
byte for byte. -/
theorem C1_decode_encode_byte_stable (h8 : Bytes → Bytes) (b : Bytes)
    (hb : WellFormedFrame h8 b) :
    (Packet.from_bytes h8 b).map (Packet.to_bytes h8) = some b := by
  obtain ⟨hok, hlen, h30, h31, hhash, htot⟩ := hb
  cases hsg : frame_signed b with
  | false =>
    simp only [hsg, Bool.false_eq_true, if_false, Nat.add_zero] at htot
    have hpl : 32 + frame_plen b ≤ b.length := by omega
    rw [from_bytes_eq_unsigned h8 b (by omega) (by omega) hhash hsg]
    simp only [Option.map_some']
    congr 1
    rw [to_bytes_sig_none h8 _ rfl]
    simp only []
    rw [serialize_header_of_frame h8 b none hok hlen h30 h31 hhash hpl]
    have hpay : frame_payload b = b.drop 32 := by
      unfold frame_payload
      apply List.take_of_length_le
      simp
      omega
    rw [hpay, List.take_append_drop]
  | true =>
    simp only [hsg, if_true] at htot
    have hpl : 32 + frame_plen b ≤ b.length := by omega
    rw [from_bytes_eq_signed h8 b (by omega) (by omega) hhash hsg (by omega)]
    simp only [Option.map_some']
    congr 1
    have hslen : ((b.drop (32 + frame_plen b)).take 64).length = 64 := by
      simp
      omega
    have hne : (b.drop (32 + frame_plen b)).take 64 ≠ [] := by
      intro hemp
      rw [hemp] at hslen
      simp at hslen
    rw [to_bytes_sig_some h8 _ _ rfl (by exact hsg) hne]
    simp only []
    rw [serialize_header_of_frame h8 b _ hok hlen h30 h31 hhash hpl]
    have hs2 : (b.drop (32 + frame_plen b)).take 64 = (b.drop 32).drop (frame_plen b) := by
      rw [List.drop_drop]
      apply List.take_of_length_le
      simp
      omega
    have hpay : frame_payload b = (b.drop 32).take (frame_plen b) := rfl
    rw [hs2, hpay, List.append_assoc, List.take_append_drop, List.take_append_drop]

/-- Witness for C1 on a concrete frame. -/
theorem C1_decode_encode_byte_stable_witness :
    WellFormedFrame toyH8 wFrame ∧
      (Packet.from_bytes toyH8 wFrame).map (Packet.to_bytes toyH8) = some wFrame :=
  ⟨by decide, C1_decode_encode_byte_stable toyH8 wFrame (by decide)⟩

/-- Claim C2: Packet.from_bytes fails exactly on a short header, a declared
payload overrunning the buffer, a payload-hash mismatch, or a missing
64-byte signature when the SIGNED flag is set; otherwise it returns the
packet with the decoded header fields and payload. -/
theorem C2_decode_failure_conditions (h8 : Bytes → Bytes) (b : Bytes) :
    (Packet.from_bytes h8 b = none ↔
      b.length < 32 ∨ b.length < 32 + frame_plen b ∨
        h8 (frame_payload b) ≠ frame_hash b ∨
        (frame_signed b = true ∧ b.length < 32 + frame_plen b + 64)) ∧
    ∀ p, Packet.from_bytes h8 b = some p →
      p.flags = b.getD 0 0 ∧ p.ttl = b.getD 1 0 ∧ p.hop_count = b.getD 2 0 ∧
        p.packet_type = b.getD 3 0 ∧ p.destination = (b.drop 4).take 16 ∧
        p.payload = frame_payload b ∧
        p.signature = if frame_signed b then
          some ((b.drop (32 + frame_plen b)).take 64) else none := by
  by_cases h1 : b.length < 32
  · have hz : Packet.from_bytes h8 b = none := by
      rw [Packet.from_bytes, if_pos (by simp only [HEADER_SIZE]; omega)]
    rw [hz]
    simp [h1]
  by_cases h2 : b.length < 32 + frame_plen b
  · have hz : Packet.from_bytes h8 b = none := by
      rw [Packet.from_bytes, if_neg (by simp only [HEADER_SIZE]; omega),
        if_pos (by simp only [HEADER_SIZE]; omega)]
    rw [hz]
    simp [h1, h2]
  by_cases h3 : h8 (frame_payload b) = frame_hash b
  · cases hsg : frame_signed b with
    | false =>
      rw [from_bytes_eq_unsigned h8 b h1 h2 h3 hsg]
      constructor
      · simp [h1, h2, h3, hsg]
      · intro p hp
        rw [Option.some_inj] at hp
        subst hp
        simp [hsg]
    | true =>
      by_cases h5 : b.length < 32 + frame_plen b + 64
      · have hz : Packet.from_bytes h8 b = none := by
          rw [Packet.from_bytes, if_neg (by simp only [HEADER_SIZE]; omega),
            if_neg (by simp only [HEADER_SIZE]; omega), if_neg (by simp [h3]), hsg]
          simp only [if_true, HEADER_SIZE, SIGNATURE_SIZE]
          rw [if_pos (by omega)]
        rw [hz]
        simp [h1, h2, h3, hsg, h5]
      · rw [from_bytes_eq_signed h8 b h1 h2 h3 hsg h5]
        constructor
        · simp [h1, h2, h3, hsg, h5]
        · intro p hp
          rw [Option.some_inj] at hp
          subst hp
          simp [hsg]
  · have hz : Packet.from_bytes h8 b = none := by
      rw [Packet.from_bytes, if_neg (by simp only [HEADER_SIZE]; omega),
        if_neg (by simp only [HEADER_SIZE]; omega), if_pos (by simp [h3])]
    rw [hz]
    simp [h1, h2, h3]

/-- Witness for C2 on a concrete frame. -/
theorem C2_decode_failure_conditions_witness :
    ∃ p, Packet.from_bytes toyH8 wFrame = some p ∧ p.payload = frame_payload wFrame := by
  have h := (C2_decode_failure_conditions toyH8 wFrame).2
  refine ⟨⟨1, 0, 0, 0, List.replicate 16 0, [], none⟩, by decide, ?_⟩
  exact (h ⟨1, 0, 0, 0, List.replicate 16 0, [], none⟩ (by decide)).2.2.2.2.2.1

/-- Searching a mapped list commutes with the map when it preserves the predicate. -/
theorem find?_map_pres {α : Type} (p : α → Bool) (g : α → α)
    (hg : ∀ x, p (g x) = p x) (l : List α) :
    (l.map g).find? p = (l.find? p).map g := by
  induction l with
  | nil => rfl
  | cons a t ih =>
    cases hp : p a with
    | true =>
      rw [List.map_cons, List.find?_cons_of_pos _ (by rw [hg]; exact hp),
        List.find?_cons_of_pos _ hp]
      rfl
    | false =>
      rw [List.map_cons, List.find?_cons_of_neg _ (by rw [hg, hp]; simp),
        List.find?_cons_of_neg _ (by rw [hp]; simp)]
      exact ih

/-- Two members of a list with pairwise distinct keys that share a key are
equal. -/
theorem mem_key_unique {α β : Type} (f : α → β) (l : List α)
    (hnd : (l.map f).Nodup) (x y : α) (hx : x ∈ l) (hy : y ∈ l)
    (hf : f x = f y) : x = y := by
  induction l with
  | nil => simp at hx
  | cons a t ih =>
    simp only [List.map_cons, List.nodup_cons] at hnd
    rcases List.mem_cons.mp hx with rfl | hx2
    · rcases List.mem_cons.mp hy with rfl | hy2
      · rfl
      · exfalso
        apply hnd.1
        rw [hf]
        exact List.mem_map.mpr ⟨y, hy2, rfl⟩
    · rcases List.mem_cons.mp hy with rfl | hy2
      · exfalso
        apply hnd.1
        rw [← hf]
        exact List.mem_map.mpr ⟨x, hx2, rfl⟩
      · exact ih hnd.2 hx2 hy2

/-- Eviction only removes entries. -/
theorem evict_oldest_sublist (l : List RouteEntry) :
    List.Sublist (evict_oldest l) l := by
  unfold evict_oldest
  split
  · split
    · exact List.Sublist.refl l
    · exact List.eraseP_sublist l
  · exact List.Sublist.refl l

/-- Claim C3 (amended): per call, an absent destination is inserted (with
LRU eviction when full), strictly fewer hops overwrite next hop, interface,
hop count and timestamp, equal hops with the same next hop refresh only the
timestamp, and any other call returns false leaving the table unchanged;
consequently, on a table with pairwise distinct destinations, no single
call increases the stored hop count of a destination whose entry exists
both before and after the call (across an eviction and re-insertion the
hop count can grow, see the counterexample). -/
theorem C3_add_or_update_behaviour (rt : RouteTable) (now : Nat) (d : Bytes)
    (nh : Option Bytes) (iface hops : Nat)
    (hnd : (rt.routes.map RouteEntry.destination).Nodup) :
    (find_route rt d = none →
      (add_or_update rt now d nh iface hops).1 = true ∧
      find_route (add_or_update rt now d nh iface hops).2 d =
        some ⟨d, nh, iface, hops, now⟩) ∧
    (∀ e, find_route rt d = some e →
      (hops < e.hop_count →
        (add_or_update rt now d nh iface hops).1 = true ∧
        find_route (add_or_update rt now d nh iface hops).2 d =
          some ⟨e.destination, nh, iface, hops, now⟩) ∧
      (hops = e.hop_count → nh = e.next_hop →
        (add_or_update rt now d nh iface hops).1 = true ∧
        find_route (add_or_update rt now d nh iface hops).2 d =
          some ⟨e.destination, e.next_hop, e.interface, e.hop_count, now⟩) ∧
      (¬ hops < e.hop_count → ¬ (hops = e.hop_count ∧ nh = e.next_hop) →
        add_or_update rt now d nh iface hops = (false, rt))) ∧
    (∀ d2 e e2, find_route rt d2 = some e →
      find_route (add_or_update rt now d nh iface hops).2 d2 = some e2 →
      e2.hop_count ≤ e.hop_count) := by
  have hgb : ∀ x : RouteEntry,
      ((if x.destination == d then
          { x with next_hop := nh, interface := iface,
                   hop_count := hops, timestamp := now }
        else x) : RouteEntry).destination = x.destination := by
    intro x
    by_cases hx : x.destination == d
    · rw [if_pos hx]
    · rw [if_neg hx]
  have hgc : ∀ x : RouteEntry,
      ((if x.destination == d then { x with timestamp := now } else x) :
        RouteEntry).destination = x.destination := by
    intro x
    by_cases hx : x.destination == d
    · rw [if_pos hx]
    · rw [if_neg hx]
  refine ⟨?_, ?_, ?_⟩
  · -- insertion of an absent destination
    intro hfd
    have hnone : ∀ x ∈ rt.routes, ¬ (x.destination == d) := by
      rw [← List.find?_eq_none]
      exact hfd
    unfold add_or_update
    rw [hfd]
    simp only []
    constructor
    · trivial
    · unfold find_route
      simp only []
      rw [List.find?_append]
      have hX : (if rt.max_routes ≤ rt.routes.length then evict_oldest rt.routes
          else rt.routes).find? (fun e => e.destination == d) = none := by
        rw [List.find?_eq_none]
        intro x hx
        by_cases hfull : rt.max_routes ≤ rt.routes.length
        · rw [if_pos hfull] at hx
          exact hnone x ((evict_oldest_sublist rt.routes).mem hx)
        · rw [if_neg hfull] at hx
          exact hnone x hx
      rw [hX]
      simp
  · -- an existing destination
    intro e hfd
    have hfd' : rt.routes.find? (fun x => x.destination == d) = some e := hfd
    have hpe0 := List.find?_some hfd'
    have hpe : (e.destination == d) = true := hpe0
    refine ⟨?_, ?_, ?_⟩
    · intro hlt
      unfold add_or_update
      rw [hfd]
      simp only []
      rw [if_pos hlt]
      refine ⟨rfl, ?_⟩
      unfold find_route
      simp only []
      rw [find?_map_pres (fun x => x.destination == d) _
        (fun x => by simp only []; rw [hgb x]) rt.routes]
      have : rt.routes.find? (fun x => x.destination == d) = some e := hfd
      rw [this]
      simp only [Option.map_some']
      rw [if_pos hpe]
    · intro heq hnh
      unfold add_or_update
      rw [hfd]
      simp only []
      rw [if_neg (by omega), if_pos ⟨heq, hnh⟩]
      refine ⟨rfl, ?_⟩
      unfold find_route
      simp only []
      rw [find?_map_pres (fun x => x.destination == d) _
        (fun x => by simp only []; rw [hgc x]) rt.routes]
      have : rt.routes.find? (fun x => x.destination == d) = some e := hfd
      rw [this]
      simp only [Option.map_some']
      rw [if_pos hpe]
    · intro hnlt hne
      unfold add_or_update
      rw [hfd]
      simp only []
      rw [if_neg hnlt, if_neg hne]
  · -- per-call hop-count monotonicity
    intro d2 e e2 he he2
    have he0 : rt.routes.find? (fun x => x.destination == d2) = some e := he
    have hmem : e ∈ rt.routes := List.mem_of_find?_eq_some he0
    have hpe20 := List.find?_some he0
    have hpe2 : (e.destination == d2) = true := hpe20
    cases hfd : find_route rt d with
    | none =>
      unfold add_or_update at he2
      rw [hfd] at he2
      simp only [] at he2
      unfold find_route at he2
      simp only [] at he2
      rw [List.find?_append] at he2
      have hnone : ∀ x ∈ rt.routes, ¬ (x.destination == d) := by
        rw [← List.find?_eq_none]
        exact hfd
      cases hX : (if rt.max_routes ≤ rt.routes.length then evict_oldest rt.routes
          else rt.routes).find? (fun x => x.destination == d2) with
      | some u =>
        rw [hX] at he2
        simp only [Option.or_some] at he2
        have hue : u = e2 := by simpa using he2
        have hu : u ∈ rt.routes := by
          by_cases hfull : rt.max_routes ≤ rt.routes.length
          · rw [if_pos hfull] at hX
            exact (evict_oldest_sublist rt.routes).mem (List.mem_of_find?_eq_some hX)
          · rw [if_neg hfull] at hX
            exact List.mem_of_find?_eq_some hX
        have hpu : (u.destination == d2) = true := by
          by_cases hfull : rt.max_routes ≤ rt.routes.length
          · rw [if_pos hfull] at hX
            have h0 := List.find?_some hX
            exact h0
          · rw [if_neg hfull] at hX
            have h0 := List.find?_some hX
            exact h0
        have heu : u = e := mem_key_unique RouteEntry.destination rt.routes hnd u e hu hmem
          (by rw [beq_iff_eq] at hpe2 hpu; rw [hpu, hpe2])
        rw [← hue, heu]
      | none =>
        rw [hX] at he2
        simp only [Option.or] at he2
        have hpnew : (d == d2) = true := by
          rcases hfind : List.find? (fun x => x.destination == d2)
              [(⟨d, nh, iface, hops, now⟩ : RouteEntry)] with _ | u
          · rw [hfind] at he2
            simp at he2
          · have := List.find?_some hfind
            have hu : u ∈ [(⟨d, nh, iface, hops, now⟩ : RouteEntry)] :=
              List.mem_of_find?_eq_some hfind
            simp only [List.mem_singleton] at hu
            rw [hu] at this
            exact this
        exfalso
        rw [beq_iff_eq] at hpnew
        rw [hpnew] at hfd
        rw [hfd] at he
        exact Option.noConfusion he
    | some f =>
      unfold add_or_update at he2
      rw [hfd] at he2
      simp only [] at he2
      by_cases hlt : hops < f.hop_count
      · rw [if_pos hlt] at he2
        unfold find_route at he2
        simp only [] at he2
        rw [find?_map_pres (fun x => x.destination == d2) _
          (fun x => by simp only []; rw [hgb x]) rt.routes] at he2
        have he' : rt.routes.find? (fun x => x.destination == d2) = some e := he
        rw [he'] at he2
        simp only [Option.map_some'] at he2
        by_cases hed : e.destination == d
        · rw [if_pos hed] at he2
          have hde : e = f := by
            rw [beq_iff_eq] at hed
            have hd2 : e.destination = d2 := beq_iff_eq.mp hpe2
            have hdd : d2 = d := by rw [← hd2, hed]
            have h1 : find_route rt d = some f := hfd
            have h2 : find_route rt d = some e := by rw [← hdd]; exact he
            rw [h2] at h1
            exact Option.some_inj.mp h1
          have he2' := Option.some_inj.mp he2
          rw [← he2']
          simp only []
          rw [hde]
          omega
        · rw [if_neg hed] at he2
          have he2' := Option.some_inj.mp he2
          rw [← he2']
      · rw [if_neg hlt] at he2
        by_cases heq : hops = f.hop_count ∧ nh = f.next_hop
        · rw [if_pos heq] at he2
          unfold find_route at he2
          simp only [] at he2
          rw [find?_map_pres (fun x => x.destination == d2) _
            (fun x => by simp only []; rw [hgc x]) rt.routes] at he2
          have he' : rt.routes.find? (fun x => x.destination == d2) = some e := he
          rw [he'] at he2
          simp only [Option.map_some'] at he2
          by_cases hed : e.destination == d
          · rw [if_pos hed] at he2
            have he2' := Option.some_inj.mp he2
            rw [← he2']
          · rw [if_neg hed] at he2
            have he2' := Option.some_inj.mp he2
            rw [← he2']
        · rw [if_neg heq] at he2
          have hsame : find_route rt d2 = some e2 := he2
          rw [he] at hsame
          have he2' := Option.some_inj.mp hsame
          rw [← he2']

/-- Counterexample to C3 as stated: with capacity 1, destination 1 is
inserted with hop count 1, evicted by an insertion for destination 2, and
re-inserted with hop count 5 — the stored hop count for destination 1
increased across the call sequence. -/
theorem C3_counterexample :
    (find_route (add_or_update ⟨1, []⟩ 0 [1] none 0 1).2 [1]).map
        RouteEntry.hop_count = some 1 ∧
    (find_route (add_or_update (add_or_update
        (add_or_update ⟨1, []⟩ 0 [1] none 0 1).2 1 [2] none 0 1).2
        2 [1] none 0 5).2 [1]).map RouteEntry.hop_count = some 5 := by
  decide

/-- Witness for C3 on a concrete table: a strictly better route overwrites
the stored entry. -/
theorem C3_add_or_update_behaviour_witness :
    (([⟨[1], none, 0, 3, 0⟩] : List RouteEntry).map RouteEntry.destination).Nodup ∧
    (add_or_update ⟨10, [⟨[1], none, 0, 3, 0⟩]⟩ 5 [1] none 0 2).1 = true ∧
    find_route (add_or_update ⟨10, [⟨[1], none, 0, 3, 0⟩]⟩ 5 [1] none 0 2).2 [1] =
      some ⟨[1], none, 0, 2, 5⟩ := by
  have h := C3_add_or_update_behaviour ⟨10, [⟨[1], none, 0, 3, 0⟩]⟩ 5 [1] none 0 2
    (by decide)
  have h2 := (h.2.1 ⟨[1], none, 0, 3, 0⟩ (by decide)).1 (by decide)
  exact ⟨by decide, h2.1, h2.2⟩

/-- Indexed map lookup. -/
theorem mapIdxFrom_getElem? {α : Type} (f : Nat → α → α) (n : Nat) (l : List α)
    (i : Nat) : (mapIdxFrom f n l)[i]? = (l[i]?).map (f (n + i)) := by
  induction l generalizing n i with
  | nil => simp [mapIdxFrom]
  | cons a t ih =>
    cases i with
    | zero => simp [mapIdxFrom]
    | succ j =>
      simp only [mapIdxFrom, List.getElem?_cons_succ]
      rw [show n + (j + 1) = n + 1 + j from by omega]
      exact ih (n + 1) j

/-- Stable insertion permutes with cons. -/
theorem insertSorted_perm {α : Type} (le : α → α → Bool) (x : α) (l : List α) :
    List.Perm (insertSorted le x l) (x :: l) := by
  induction l with
  | nil => exact List.Perm.refl _
  | cons y ys ih =>
    unfold insertSorted
    by_cases h : le y x
    · rw [if_pos h]
      exact (ih.cons y).trans (List.Perm.swap x y ys)
    · rw [if_neg h]

/-- The stable sort permutes its input. -/
theorem stableSort_perm {α : Type} (le : α → α → Bool) (l : List α) :
    List.Perm (stableSort le l) l := by
  have aux : ∀ (l acc : List α),
      List.Perm (l.foldl (fun a x => insertSorted le x a) acc) (acc ++ l) := by
    intro l
    induction l with
    | nil => intro acc; simp
    | cons x t ih =>
      intro acc
      have h1 := ih (insertSorted le x acc)
      have h2 : List.Perm (insertSorted le x acc ++ t) ((x :: acc) ++ t) :=
        (insertSorted_perm le x acc).append_right t
      have h3 : List.Perm ((x :: acc) ++ t) (acc ++ x :: t) := by
        simpa using List.perm_middle.symm
      exact (h1.trans h2).trans h3
  simpa using aux l []

/-- Claim C4: forwarding an ANNOUNCE increments the hop count and drops the
packet at max_hops; otherwise, for every online transport other than the
receiving one, the re-serialized packet is enqueued tagged with the
incremented hop count, except on ACCESS_POINT transports and on BOUNDARY
transports when the incremented hop count exceeds 3. -/
theorem C4_forward_announce_policy (h8 : Bytes → Bytes) (max_hops now : Nat)
    (p : Packet) (phycores : List Phycore) (recv : Nat) :
    (max_hops ≤ p.hop_count + 1 →
      forward_announce h8 max_hops now p phycores recv = phycores) ∧
    (p.hop_count + 1 < max_hops →
      ∀ i pc, phycores[i]? = some pc →
        (i ≠ recv → pc.online = true → pc.mode ≠ InterfaceMode.ACCESS_POINT →
          ¬ (pc.mode = InterfaceMode.BOUNDARY ∧ 3 < p.hop_count + 1) →
          (forward_announce h8 max_hops now p phycores recv)[i]? = some
            { pc with announce_queue := stableSort queueLe (pc.announce_queue ++
                [(p.hop_count + 1, now,
                  Packet.to_bytes h8 { p with hop_count := p.hop_count + 1 })]) } ∧
          (p.hop_count + 1, now,
              Packet.to_bytes h8 { p with hop_count := p.hop_count + 1 }) ∈
            (stableSort queueLe (pc.announce_queue ++
              [(p.hop_count + 1, now,
                Packet.to_bytes h8 { p with hop_count := p.hop_count + 1 })]))) ∧
        (i = recv ∨ pc.online = false ∨ pc.mode = InterfaceMode.ACCESS_POINT ∨
            (pc.mode = InterfaceMode.BOUNDARY ∧ 3 < p.hop_count + 1) →
          (forward_announce h8 max_hops now p phycores recv)[i]? = some pc)) := by
  constructor
  · intro hdrop
    unfold forward_announce
    simp only []
    rw [if_pos hdrop]
  · intro hfwd i pc hpc
    have hres : (forward_announce h8 max_hops now p phycores recv)[i]? =
        some ((fun i pc =>
          if i = recv ∨ pc.online = false then pc
          else if pc.mode = InterfaceMode.ACCESS_POINT then pc
          else if pc.mode = InterfaceMode.BOUNDARY ∧
              3 < ({ p with hop_count := p.hop_count + 1 } : Packet).hop_count then pc
          else queue_announce_for_forwarding pc
            (Packet.to_bytes h8 { p with hop_count := p.hop_count + 1 })
            ({ p with hop_count := p.hop_count + 1 } : Packet).hop_count now) i pc) := by
      unfold forward_announce
      simp only []
      rw [if_neg (by omega)]
      rw [mapIdxFrom_getElem?]
      rw [hpc]
      simp
    constructor
    · intro hnr hon hnap hnb
      rw [hres]
      simp only []
      rw [if_neg (by simp [hnr, hon])]
      rw [if_neg hnap]
      rw [if_neg (by simpa using hnb)]
      constructor
      · rfl
      · have hperm := stableSort_perm queueLe (pc.announce_queue ++
          [(p.hop_count + 1, now,
            Packet.to_bytes h8 { p with hop_count := p.hop_count + 1 })])
        apply (hperm.mem_iff).mpr
        simp
    · intro hskip
      rw [hres]
      simp only []
      by_cases h1 : i = recv ∨ pc.online = false
      · rw [if_pos h1]
      · rw [if_neg h1]
        by_cases h2 : pc.mode = InterfaceMode.ACCESS_POINT
        · rw [if_pos h2]
        · rw [if_neg h2]
          have h3 : pc.mode = InterfaceMode.BOUNDARY ∧ 3 < p.hop_count + 1 := by
            rcases hskip with h | h | h | h
            · exact absurd (Or.inl h) h1
            · exact absurd (Or.inr h) h1
            · exact absurd h h2
            · exact h
          rw [if_pos (by simpa using h3)]

/-- Witness for C4 on concrete inputs: a FULL online transport receives the
forwarded announce in its queue, while the receiving transport and an
ACCESS_POINT transport are skipped. -/
theorem C4_forward_announce_policy_witness :
    (1 + 1 < 128 ∧
      ((⟨true, 1, true, []⟩ : Phycore).online = true)) ∧
    (forward_announce toyH8 128 9
        ⟨2, 0, 32, 1, List.replicate 16 0, [], none⟩
        [⟨true, 1, true, []⟩, ⟨true, 4, true, []⟩] 0)[1]? =
      some ⟨true, 4, true, []⟩ ∧
    (forward_announce toyH8 128 9
        ⟨2, 0, 32, 1, List.replicate 16 0, [], none⟩
        [⟨true, 1, true, []⟩, ⟨true, 4, true, []⟩] 0)[0]? =
      some ⟨true, 1, true, []⟩ := by
  have h := C4_forward_announce_policy toyH8 128 9
    ⟨2, 0, 32, 1, List.replicate 16 0, [], none⟩
    [⟨true, 1, true, []⟩, ⟨true, 4, true, []⟩] 0
  refine ⟨⟨by omega, rfl⟩, ?_, ?_⟩
  · exact ((h.2 (by decide) 1 ⟨true, 4, true, []⟩ (by decide)).2 (by decide))
  · exact ((h.2 (by decide) 0 ⟨true, 1, true, []⟩ (by decide)).2 (by decide))

/-- Claim C5 (amended): send_data with a live route sends exactly once via
the routed transport when it is online, but when that transport is offline
it transmits nothing and returns failure (no broadcast fallback); only when
no route exists does it broadcast on every online transport, succeeding iff
some online transport reports a successful send. -/
theorem C5_send_data_routing (h8 signFn : Bytes → Bytes) (now timeout : Nat)
    (rt : RouteTable) (phycores : List Phycore) (destination payload : Bytes)
    (sgn : Bool) (flags : Nat) :
    (∀ r rt2, get_route rt now timeout destination = (some r, rt2) →
      ∀ pc, phycores[r.interface]? = some pc →
        (pc.online = true →
          send_data h8 signFn now timeout rt phycores destination payload sgn flags =
            (pc.sendOk, [(r.interface,
              (build_data_packet h8 signFn destination payload sgn flags).to_bytes h8)],
              rt2)) ∧
        (pc.online = false →
          send_data h8 signFn now timeout rt phycores destination payload sgn flags =
            (false, [], rt2))) ∧
    (∀ rt2, get_route rt now timeout destination = (none, rt2) →
      ((send_data h8 signFn now timeout rt phycores destination payload sgn flags).2.2 =
        rt2) ∧
      (∀ (i : Nat) (pc : Phycore), phycores[i]? = some pc →
        ((i, (build_data_packet h8 signFn destination payload sgn flags).to_bytes h8) ∈
            (send_data h8 signFn now timeout rt phycores destination payload
              sgn flags).2.1 ↔ pc.online = true)) ∧
      ((send_data h8 signFn now timeout rt phycores destination payload sgn flags).1 =
          true ↔
        ∃ (i : Nat) (pc : Phycore),
          phycores[i]? = some pc ∧ pc.online = true ∧ pc.sendOk = true)) := by
  constructor
  · intro r rt2 hroute pc hpc
    constructor
    · intro hon
      unfold send_data
      rw [hroute]
      simp only []
      rw [hpc]
      simp only []
      rw [if_pos hon]
    · intro hoff
      unfold send_data
      rw [hroute]
      simp only []
      rw [hpc]
      simp only []
      rw [if_neg (by rw [hoff]; simp)]
  · intro rt2 hroute
    have hsd : send_data h8 signFn now timeout rt phycores destination payload sgn flags =
        (phycores.any (fun pc => pc.online && pc.sendOk),
          (List.range phycores.length).filterMap (fun i =>
            match phycores[i]? with
            | some pc => if pc.online then some (i,
                (build_data_packet h8 signFn destination payload sgn flags).to_bytes h8)
              else none
            | none => none), rt2) := by
      unfold send_data
      rw [hroute]
      rfl
    refine ⟨by rw [hsd], ?_, ?_⟩
    · intro i pc hpc
      rw [hsd]
      simp only []
      rw [List.mem_filterMap]
      constructor
      · rintro ⟨j, hjr, hj⟩
        rcases hjq : phycores[j]? with _ | qc
        · rw [hjq] at hj
          simp at hj
        · rw [hjq] at hj
          simp only [] at hj
          by_cases hq : qc.online = true
          · rw [if_pos hq] at hj
            have hij : j = i := by
              have := Option.some_inj.mp hj
              exact congrArg Prod.fst this
            rw [hij] at hjq
            rw [hpc] at hjq
            rw [Option.some_inj.mp hjq]
            exact hq
          · rw [if_neg hq] at hj
            exact absurd hj (Option.noConfusion)
      · intro hon
        refine ⟨i, ?_, ?_⟩
        · rw [List.mem_range]
          have := List.getElem?_eq_some.mp hpc
          exact this.1
        · rw [hpc]
          simp only []
          rw [if_pos hon]
    · rw [hsd]
      simp only []
      rw [List.any_eq_true]
      constructor
      · rintro ⟨pc, hmem, hp⟩
        obtain ⟨k, hk, rfl⟩ := List.getElem_of_mem hmem
        refine ⟨k, phycores[k], by simp [List.getElem?_eq_getElem hk], ?_⟩
        simpa using hp
      · rintro ⟨i, pc, hpc, hon, hok⟩
        obtain ⟨hi, rfl⟩ := List.getElem?_eq_some.mp hpc
        exact ⟨phycores[i], List.getElem_mem hi, by simp [hon, hok]⟩

/-- Counterexample to C5 as stated: a route to destination 1 points at the
offline transport 0 while transport 1 is online, yet send_data transmits
nothing and returns failure instead of broadcasting. -/
theorem C5_counterexample :
    (send_data toyH8 (fun x => x) 0 1800 ⟨10, [⟨[1], none, 0, 1, 0⟩]⟩
        [⟨false, 1, true, []⟩, ⟨true, 1, true, []⟩] [1] [2] false 0).1 = false ∧
    (send_data toyH8 (fun x => x) 0 1800 ⟨10, [⟨[1], none, 0, 1, 0⟩]⟩
        [⟨false, 1, true, []⟩, ⟨true, 1, true, []⟩] [1] [2] false 0).2.1 = [] ∧
    (([⟨false, 1, true, []⟩, ⟨true, 1, true, []⟩] : List Phycore)[1]?).map
        Phycore.online = some true := by
  decide

/-- Witness for C5 on concrete inputs: the live-route branch sends once via
the routed online transport. -/
theorem C5_send_data_routing_witness :
    send_data toyH8 (fun x => x) 0 1800 ⟨10, [⟨[1], none, 0, 1, 0⟩]⟩
        [⟨true, 1, true, []⟩] [1] [2] false 0 =
      (true, [(0, (build_data_packet toyH8 (fun x => x) [1] [2] false 0).to_bytes toyH8)],
        ⟨10, [⟨[1], none, 0, 1, 0⟩]⟩) := by
  have h := (C5_send_data_routing toyH8 (fun x => x) 0 1800
    ⟨10, [⟨[1], none, 0, 1, 0⟩]⟩ [⟨true, 1, true, []⟩] [1] [2] false 0).1
    ⟨[1], none, 0, 1, 0⟩ ⟨10, [⟨[1], none, 0, 1, 0⟩]⟩ (by decide)
    ⟨true, 1, true, []⟩ (by decide)
  exact h.1 rfl

/-- Claim C7 (amended): in Node._handle_data_packet the FRAGMENTED check
runs first: a fragmented payload goes to the transfer manager even when it
begins with a known colony id; only non-fragmented payloads of at least 16
bytes whose prefix matches a known colony are routed to that colony, and
everything else goes to the user callback. -/
theorem C7_data_dispatch_precedence (colonies : List Bytes) (p : Packet) :
    (p.is_fragmented = true →
      handle_data_packet colonies p = DataDispatch.transfer) ∧
    (p.is_fragmented = false → 16 ≤ p.payload.length →
      colonies.contains (p.payload.take 16) = true →
      handle_data_packet colonies p = DataDispatch.colony (p.payload.take 16)) ∧
    (p.is_fragmented = false →
      ¬ (16 ≤ p.payload.length ∧ colonies.contains (p.payload.take 16) = true) →
      handle_data_packet colonies p = DataDispatch.callback) := by
  refine ⟨?_, ?_, ?_⟩
  · intro hf
    unfold handle_data_packet
    rw [if_pos hf]
  · intro hf hlen hc
    unfold handle_data_packet
    rw [if_neg (by rw [hf]; simp), if_pos ⟨hlen, hc⟩]
  · intro hf hnc
    unfold handle_data_packet
    rw [if_neg (by rw [hf]; simp), if_neg hnc]

/-- Counterexample to C7 as stated: a FRAGMENTED packet whose payload begins
with a known colony id is routed to the transfer manager, not to the
colony — the fragment check takes precedence. -/
theorem C7_counterexample :
    handle_data_packet [List.replicate 16 1]
        ⟨1, 16, 32, 0, List.replicate 16 0, List.replicate 16 1 ++ [9], none⟩ =
      DataDispatch.transfer ∧
    DataDispatch.transfer ≠ DataDispatch.colony (List.replicate 16 1) := by
  decide

/-- Witness for C7 on concrete inputs: a non-fragmented colony-prefixed
payload is dispatched to the colony. -/
theorem C7_data_dispatch_precedence_witness :
    handle_data_packet [List.replicate 16 1]
        ⟨1, 0, 32, 0, List.replicate 16 0, List.replicate 16 1 ++ [9], none⟩ =
      DataDispatch.colony ((List.replicate 16 1 ++ [9]).take 16) := by
  exact (C7_data_dispatch_precedence [List.replicate 16 1]
    ⟨1, 0, 32, 0, List.replicate 16 0, List.replicate 16 1 ++ [9], none⟩).2.1
    (by decide) (by decide) (by decide)

/-- Re-serializing a decoded frame with an arbitrary hop-count byte yields
the original frame with byte 2 replaced. -/
theorem to_bytes_set_hop (h8 : Bytes → Bytes) (b : Bytes) (v : Nat)
    (hb : WellFormedFrame h8 b) (hv : v < 256) :
    ∀ p, Packet.from_bytes h8 b = some p →
      Packet.to_bytes h8 { p with hop_count := v } = b.set 2 v := by
  obtain ⟨hok, hlen, h30, h31, hhash, htot⟩ := hb
  intro p hp
  have hbset : b.set 2 v = (b.take 32).set 2 v ++ b.drop 32 := by
    conv_lhs => rw [← List.take_append_drop 32 b]
    rw [List.set_append]
    simp only [if_pos (show (2:Nat) < (b.take 32).length from by simp; omega)]
  cases hsg : frame_signed b with
  | false =>
    simp only [hsg, Bool.false_eq_true, if_false, Nat.add_zero] at htot
    have hpl : 32 + frame_plen b ≤ b.length := by omega
    rw [from_bytes_eq_unsigned h8 b (by omega) (by omega) hhash hsg] at hp
    obtain rfl := Option.some_inj.mp hp
    simp only []
    rw [to_bytes_sig_none h8 _ rfl]
    simp only []
    rw [serialize_header_of_frame_hop h8 b none v hok hlen h30 h31 hhash hpl hv]
    have hpay : frame_payload b = b.drop 32 := by
      unfold frame_payload
      apply List.take_of_length_le
      simp
      omega
    rw [hpay, hbset]
  | true =>
    simp only [hsg, if_true] at htot
    have hpl : 32 + frame_plen b ≤ b.length := by omega
    rw [from_bytes_eq_signed h8 b (by omega) (by omega) hhash hsg (by omega)] at hp
    obtain rfl := Option.some_inj.mp hp
    simp only []
    have hslen : ((b.drop (32 + frame_plen b)).take 64).length = 64 := by
      simp
      omega
    have hne : (b.drop (32 + frame_plen b)).take 64 ≠ [] := by
      intro hemp
      rw [hemp] at hslen
      simp at hslen
    rw [to_bytes_sig_some h8 _ _ rfl (by exact hsg) hne]
    simp only []
    rw [serialize_header_of_frame_hop h8 b _ v hok hlen h30 h31 hhash hpl hv]
    have hs2 : (b.drop (32 + frame_plen b)).take 64 = (b.drop 32).drop (frame_plen b) := by
      rw [List.drop_drop]
      apply List.take_of_length_le
      simp
      omega
    have hpay : frame_payload b = (b.drop 32).take (frame_plen b) := rfl
    rw [hs2, hpay, List.append_assoc, List.take_append_drop, hbset]

/-- Claim C8 (amended): the colony round-trip
decrypt_group(encrypt_group(m, k), k) = m holds for every drawn nonce other
than the all-zero 12-byte fallback marker; when the random nonce is all
zeros the decryptor takes the fallback path and returns the raw ciphertext
instead (see the counterexample). -/
theorem C8_group_encrypt_roundtrip (A : AEAD) (nonce m k : Bytes)
    (hlen : nonce.length = 12) (hnz : nonce ≠ List.replicate 12 0) :
    decrypt_group_message A (encrypt_group_message A nonce m k) k = some m := by
  unfold encrypt_group_message decrypt_group_message
  have ht : (nonce ++ A.enc k nonce m).take 12 = nonce := List.take_left' hlen
  have hd : (nonce ++ A.enc k nonce m).drop 12 = A.enc k nonce m :=
    List.drop_left' hlen
  rw [if_neg (by simp; omega)]
  rw [ht, hd]
  rw [if_neg hnz]
  exact A.dec_enc k nonce m

/-- Counterexample to C8 as stated: with the all-zero nonce, the decryptor
returns the raw AEAD ciphertext (16 bytes longer than the message), not the
plaintext. -/
theorem C8_counterexample :
    decrypt_group_message toyAEAD
        (encrypt_group_message toyAEAD (List.replicate 12 0) [1] [2]) [2] ≠
      some [1] := by
  decide

/-- Witness for C8 on concrete inputs. -/
theorem C8_group_encrypt_roundtrip_witness :
    decrypt_group_message toyAEAD
        (encrypt_group_message toyAEAD (List.replicate 12 1) [5] [9]) [9] =
      some [5] :=
  C8_group_encrypt_roundtrip toyAEAD (List.replicate 12 1) [5] [9]
    (by decide) (by decide)

/-- Claim C9: a group message whose 12-byte nonce field is all zeros is
accepted as already decrypted: the remaining bytes are returned unchanged,
for every key and every AEAD implementation — no ChaCha20-Poly1305
authentication is consulted on this path. -/
theorem C9_zero_nonce_fallback (A : AEAD) (k c : Bytes) :
    decrypt_group_message A (List.replicate 12 0 ++ c) k = some c := by
  unfold decrypt_group_message
  have ht : (List.replicate 12 0 ++ c).take 12 = List.replicate 12 0 :=
    List.take_left' (by simp)
  have hd : (List.replicate 12 0 ++ c).drop 12 = c :=
    List.drop_left' (by simp)
  rw [if_neg (by simp)]
  simp [ht, hd]

/-- Claim C10: forwarding a decoded frame — DATA via _forward_packet or
ANNOUNCE via _forward_announce — retransmits exactly the original frame
with only byte 2 (hop_count) incremented: flags, ttl, type, destination,
payload and signature bytes are unchanged; ttl is neither decremented (as
increment_hop would do) nor consulted (is_expired is never invoked), so a
frame with ttl = 0 — on which is_expired holds — is still forwarded
whenever the incremented hop count is below max_hops. -/
theorem C10_forwarding_changes_only_hop (h8 : Bytes → Bytes) (b : Bytes)
    (p : Packet) (hb : WellFormedFrame h8 b) (hp : Packet.from_bytes h8 b = some p)
    (hbyte : p.hop_count + 1 < 256) :
    Packet.to_bytes h8 { p with hop_count := p.hop_count + 1 } =
      b.set 2 (p.hop_count + 1) ∧
    (∀ max_hops now timeout rt phycores r rt2 pc,
      p.hop_count + 1 < max_hops →
      get_route rt now timeout p.destination = (some r, rt2) →
      phycores[r.interface]? = some pc → pc.online = true →
      forward_packet h8 max_hops now timeout rt phycores p =
        ([(r.interface, b.set 2 (p.hop_count + 1))], rt2)) ∧
    (∀ max_hops now phycores recv i pc,
      p.hop_count + 1 < max_hops →
      phycores[i]? = some pc → i ≠ recv → pc.online = true →
      pc.mode ≠ InterfaceMode.ACCESS_POINT →
      ¬ (pc.mode = InterfaceMode.BOUNDARY ∧ 3 < p.hop_count + 1) →
      (forward_announce h8 max_hops now p phycores recv)[i]? = some
        { pc with announce_queue := stableSort queueLe (pc.announce_queue ++
            [(p.hop_count + 1, now, b.set 2 (p.hop_count + 1))]) }) ∧
    Packet.is_expired { p with ttl := 0 } = true ∧
    (Packet.increment_hop p).ttl = p.ttl - 1 ∧
    (b.set 2 (p.hop_count + 1)).getD 1 0 = b.getD 1 0 ∧
    (b.set 2 (p.hop_count + 1)).getD 0 0 = b.getD 0 0 := by
  have h1 : Packet.to_bytes h8 { p with hop_count := p.hop_count + 1 } =
      b.set 2 (p.hop_count + 1) :=
    to_bytes_set_hop h8 b (p.hop_count + 1) hb hbyte p hp
  refine ⟨h1, ?_, ?_, rfl, rfl, ?_, ?_⟩
  · intro max_hops now timeout rt phycores r rt2 pc hmax hroute hpc hon
    unfold forward_packet
    rw [if_neg (by simp only []; omega)]
    rw [show ({ p with hop_count := p.hop_count + 1 } : Packet).destination =
      p.destination from rfl]
    rw [hroute]
    simp only []
    rw [hpc]
    simp only []
    rw [if_pos hon]
    rw [h1]
  · intro max_hops now phycores recv i pc hmax hpc hnr hon hnap hnb
    unfold forward_announce
    rw [if_neg (by simp only []; omega)]
    rw [mapIdxFrom_getElem?]
    rw [hpc]
    simp only [Option.map_some']
    rw [if_neg (by simp [hnr, hon])]
    rw [if_neg hnap]
    rw [if_neg (by simpa using hnb)]
    unfold queue_announce_for_forwarding
    rw [h1]
  · rw [List.getD, List.getD, List.get?_eq_getElem?, List.get?_eq_getElem?,
      List.getElem?_set_ne (by omega)]
  · rw [List.getD, List.getD, List.get?_eq_getElem?, List.get?_eq_getElem?,
      List.getElem?_set_ne (by omega)]

theorem fixlen_length (n : Nat) (bs : Bytes) : (fixlen n bs).length = n := by
  unfold fixlen
  simp
  omega

theorem getD_append_ge (l1 l2 : Bytes) (n d : Nat) (h : l1.length ≤ n) :
    (l1 ++ l2).getD n d = l2.getD (n - l1.length) d := by
  rw [List.getD, List.getD, List.get?_eq_getElem?, List.get?_eq_getElem?,
    List.getElem?_append_right h]

/-- Parsing a fragment frame built from a 16-byte prefix, two header bytes
and a chunk. -/
theorem parse_fragment_parts (A : Bytes) (hA : A.length = 16) (x y : Nat) (c : Bytes) :
    parse_fragment (A ++ [x, y] ++ c) = some (A, x, y &&& 1 != 0, c) := by
  unfold parse_fragment
  rw [if_neg (by simp [FRAGMENT_HEADER_SIZE, hA]; omega)]
  have ht : (A ++ [x, y] ++ c).take 16 = A := by
    rw [List.append_assoc]
    exact List.take_left' hA
  have h16 : (A ++ [x, y] ++ c).getD 16 0 = x := by
    rw [List.append_assoc, getD_append_ge _ _ _ _ (by rw [hA]), hA]
    simp
  have h17 : (A ++ [x, y] ++ c).getD 17 0 = y := by
    rw [List.append_assoc, getD_append_ge _ _ _ _ (by rw [hA]; omega), hA]
    simp
  have hd : (A ++ [x, y] ++ c).drop 18 = c :=
    List.drop_left' (by simp [hA])
  rw [ht, h16, h17, hd]

/-- Parsing the i-th emitted fragment recovers its index, FINAL flag and
chunk. -/
theorem parse_mkFragment (tid d : Bytes) (n i : Nat) (hi : i < n) (hn : n ≤ 256) :
    parse_fragment (mkFragment tid n i d) =
      some (fixlen 16 tid, i, decide (i = n - 1), frag_chunk d i) := by
  unfold mkFragment
  rw [parse_fragment_parts (fixlen 16 tid) (fixlen_length 16 tid)]
  rw [Nat.mod_eq_of_lt (by omega : i < 256)]
  by_cases h : i = n - 1
  · simp [h]
  · simp [h]

/-- The index byte of the i-th emitted fragment. -/
theorem mkFragment_getD16 (tid d : Bytes) (total i : Nat) (hi : i < 256) :
    (mkFragment tid total i d).getD 16 0 = i := by
  unfold mkFragment
  rw [List.append_assoc,
    getD_append_ge _ _ _ _ (by rw [fixlen_length]), fixlen_length]
  norm_num
  omega

/-- Every fragment index below the total addresses a nonempty chunk. -/
theorem frag_chunk_ne (d : Bytes) (i : Nat) (hne : d ≠ [])
    (hi : i < frag_total d) : frag_chunk d i ≠ [] := by
  have hL : 1 ≤ d.length := List.length_pos.mpr hne
  have hkey := Nat.div_add_mod (d.length + 139) 140
  have hr : (d.length + 139) % 140 < 140 := Nat.mod_lt _ (by norm_num)
  have hq : frag_total d = (d.length + 139) / 140 := rfl
  have hlt : i * FRAGMENT_DATA_SIZE < d.length := by
    simp only [FRAGMENT_DATA_SIZE]
    rw [hq] at hi
    omega
  unfold frag_chunk
  intro hemp
  have hlen := congrArg List.length hemp
  simp only [List.length_take, List.length_drop, List.length_nil] at hlen
  simp only [FRAGMENT_DATA_SIZE] at hlen hlt
  omega

theorem lookupFrag_eq_none (frs : List (Nat × Bytes)) (j : Nat)
    (h : lookupFrag frs j = none) :
    frs.find? (fun e => e.1 == j) = none := by
  unfold lookupFrag at h
  cases hf : frs.find? (fun e => e.1 == j) with
  | some u =>
    rw [hf] at h
    simp at h
  | none => rfl

/-- Storing a fresh index appends to the dictionary. -/
theorem setFrag_of_not_mem (frs : List (Nat × Bytes)) (j : Nat) (d0 : Bytes)
    (h : lookupFrag frs j = none) : setFrag frs j d0 = frs ++ [(j, d0)] := by
  unfold setFrag
  rw [if_neg]
  intro hany
  rw [List.any_eq_true] at hany
  obtain ⟨e, hmem, he⟩ := hany
  have hf := lookupFrag_eq_none frs j h
  rw [List.find?_eq_none] at hf
  exact hf e hmem he

/-- Lookup in a dictionary extended with a fresh key. -/
theorem lookupFrag_append (frs : List (Nat × Bytes)) (j : Nat) (d0 : Bytes)
    (h : lookupFrag frs j = none) (i : Nat) :
    lookupFrag (frs ++ [(j, d0)]) i =
      if i = j then some d0 else lookupFrag frs i := by
  unfold lookupFrag
  rw [List.find?_append]
  by_cases hij : i = j
  · subst hij
    rw [lookupFrag_eq_none frs i h]
    simp
  · rw [if_neg hij]
    have hf2 : ([(j, d0)] : List (Nat × Bytes)).find? (fun e => e.1 == i) = none := by
      rw [List.find?_cons_of_neg]
      · rfl
      · simp only [beq_iff_eq]
        exact fun hh => hij hh.symm
    rw [hf2]
    rw [Option.or_none]

/-- A missing key is absent from the key list. -/
theorem key_not_mem_of_lookup_none (frs : List (Nat × Bytes)) (j : Nat)
    (h : lookupFrag frs j = none) : j ∉ frs.map Prod.fst := by
  intro hmem
  rw [List.mem_map] at hmem
  obtain ⟨e, he, hfe⟩ := hmem
  have hf := lookupFrag_eq_none frs j h
  rw [List.find?_eq_none] at hf
  exact hf e he (by simp [hfe])

/-- Witness for C10 on a concrete frame. -/
theorem C10_forwarding_changes_only_hop_witness :
    Packet.to_bytes toyH8
        { (⟨1, 0, 0, 0, List.replicate 16 0, [], none⟩ : Packet) with hop_count := 1 } =
      wFrame.set 2 1 := by
  exact (C10_forwarding_changes_only_hop toyH8 wFrame
    ⟨1, 0, 0, 0, List.replicate 16 0, [], none⟩ (by decide) (by decide) (by decide)).1

/-- Receiving a frame that parses reduces to add_fragment. -/
theorem feed_fragment_eq (st : FragmentedTransfer) (fp A dd : Bytes)
    (idx : Nat) (fin : Bool) (h : parse_fragment fp = some (A, idx, fin, dd)) :
    feed_fragment st fp = add_fragment st idx dd fin := by
  unfold feed_fragment
  rw [h]

/-- Feeding any duplicate-free list of in-range fragment frames into a
fresh transfer yields exactly the dictionary of their chunks with the FINAL
bookkeeping of the last index. -/
theorem feed_inv (tid d : Bytes) (hne : d ≠ []) (hcap : frag_total d ≤ 256) :
    ∀ I : List Nat, I.Nodup → (∀ i ∈ I, i < frag_total d) →
      TransferInv d I (feed_fragments emptyTransfer
        (I.map (fun i => mkFragment tid (frag_total d) i d))) := by
  intro I
  induction I using List.reverseRecOn with
  | nil =>
    intro hnd hlt
    refine ⟨by simp [feed_fragments, emptyTransfer], ?_, by simp [feed_fragments, emptyTransfer], by simp [feed_fragments, emptyTransfer], by simp [feed_fragments, emptyTransfer]⟩
    intro i
    simp [feed_fragments, emptyTransfer, lookupFrag]
  | append_singleton I j ih =>
    intro hnd hlt
    have hI : I.Nodup := hnd.of_append_left
    have hjI : j ∉ I := by
      rw [List.nodup_append] at hnd
      intro hj
      exact hnd.2.2 hj (List.mem_singleton.mpr rfl)
    have hj : j < frag_total d := hlt j (List.mem_append_right I (List.mem_singleton.mpr rfl))
    have hlt' : ∀ i ∈ I, i < frag_total d := fun i hi => hlt i (List.mem_append_left _ hi)
    obtain ⟨hk, hl, hlen, hfin, hexp⟩ := ih hI hlt'
    have hstep : feed_fragments emptyTransfer
        ((I ++ [j]).map (fun i => mkFragment tid (frag_total d) i d)) =
        feed_fragment (feed_fragments emptyTransfer
          (I.map (fun i => mkFragment tid (frag_total d) i d)))
          (mkFragment tid (frag_total d) j d) := by
      rw [List.map_append]
      unfold feed_fragments
      rw [List.foldl_append]
      rfl
    have hlookj : lookupFrag (feed_fragments emptyTransfer
        (I.map (fun i => mkFragment tid (frag_total d) i d))).fragments j = none := by
      rw [hl j, if_neg hjI]
    rw [hstep, feed_fragment_eq _ _ _ _ _ _
      (parse_mkFragment tid d (frag_total d) j hj hcap)]
    unfold add_fragment
    rw [if_neg (by simp [frag_chunk_ne d j hne hj])]
    simp only []
    rw [setFrag_of_not_mem _ _ _ hlookj]
    by_cases hjlast : j = frag_total d - 1
    · rw [if_pos (by simp [hjlast])]
      refine ⟨?_, ?_, ?_, ?_, ?_⟩
      · simp only [List.map_append]
        rw [List.nodup_append]
        refine ⟨hk, by simp, ?_⟩
        intro a ha hb
        simp at hb
        rw [hb] at ha
        exact key_not_mem_of_lookup_none _ _ hlookj ha
      · intro i
        simp only []
        rw [lookupFrag_append _ _ _ hlookj i]
        by_cases hij : i = j
        · rw [if_pos hij, if_pos (by rw [hij]; exact List.mem_append_right I (by simp)), hij]
        · rw [if_neg hij, hl i]
          by_cases hiI : i ∈ I
          · rw [if_pos hiI, if_pos (List.mem_append_left _ hiI)]
          · rw [if_neg hiI, if_neg (by
              intro hmem
              rcases List.mem_append.mp hmem with h | h
              · exact hiI h
              · exact hij (List.mem_singleton.mp h))]
      · simp [hlen]
      · simp only []
        have : frag_total d - 1 ∈ I ++ [j] :=
          List.mem_append_right I (by simp [hjlast])
        simp [this]
      · simp only []
        have hm : frag_total d - 1 ∈ I ++ [j] :=
          List.mem_append_right I (by simp [hjlast])
        rw [if_pos hm]
        have : j + 1 = frag_total d := by omega
        rw [this]
    · rw [if_neg (by simp [hjlast])]
      have hmemiff : (frag_total d - 1 ∈ I ++ [j]) ↔ (frag_total d - 1 ∈ I) := by
        constructor
        · intro hmem
          rcases List.mem_append.mp hmem with h | h
          · exact h
          · exact absurd (List.mem_singleton.mp h).symm hjlast
        · exact fun h => List.mem_append_left _ h
      refine ⟨?_, ?_, ?_, ?_, ?_⟩
      · simp only [List.map_append]
        rw [List.nodup_append]
        refine ⟨hk, by simp, ?_⟩
        intro a ha hb
        simp at hb
        rw [hb] at ha
        exact key_not_mem_of_lookup_none _ _ hlookj ha
      · intro i
        simp only []
        rw [lookupFrag_append _ _ _ hlookj i]
        by_cases hij : i = j
        · rw [if_pos hij, if_pos (by rw [hij]; exact List.mem_append_right I (by simp)), hij]
        · rw [if_neg hij, hl i]
          by_cases hiI : i ∈ I
          · rw [if_pos hiI, if_pos (List.mem_append_left _ hiI)]
          · rw [if_neg hiI, if_neg (by
              intro hmem
              rcases List.mem_append.mp hmem with h | h
              · exact hiI h
              · exact hij (List.mem_singleton.mp h))]
      · simp [hlen]
      · simp only []
        rw [hfin]
        simp [hmemiff]
      · simp only []
        rw [hexp]
        by_cases hmem : frag_total d - 1 ∈ I
        · rw [if_pos hmem, if_pos (hmemiff.mpr hmem)]
        · rw [if_neg hmem, if_neg (fun h => hmem (hmemiff.mp h))]

/-- Collecting the first m chunks from a dictionary that holds them
reconstructs the corresponding prefix of the stream. -/
theorem collect_chunks (frs : List (Nat × Bytes)) (d : Bytes) :
    ∀ m : Nat, (∀ i, i < m → lookupFrag frs i = some (frag_chunk d i)) →
      collect frs m = some (d.take (m * FRAGMENT_DATA_SIZE)) := by
  intro m
  induction m with
  | zero =>
    intro h
    simp [collect]
  | succ k ih =>
    intro h
    unfold collect
    rw [ih (fun i hi => h i (by omega)), h k (by omega)]
    simp only []
    congr 1
    unfold frag_chunk
    rw [show (k + 1) * FRAGMENT_DATA_SIZE = k * FRAGMENT_DATA_SIZE + FRAGMENT_DATA_SIZE
      from by ring]
    rw [List.take_add]

/-- Claim C6 (amended): fragmentation round-trips for every payload whose
metadata-prefixed stream is nonempty and at most 256 x 140 = 35840 bytes
(not the claimed 64 KiB: larger payloads make Fragmenter.fragment fail with
TooManyFragments, see the counterexample): fragment succeeds, and feeding
the fragments to a fresh transfer in any arrival order completes exactly
when every fragment has arrived, with reassemble returning the
metadata-prefixed original bytes; an empty-payload FINAL marker is never
stored and only sets expected_count = index + 1 and final_received. -/
theorem C6_fragment_roundtrip (tid data : Bytes) (meta : Option Bytes)
    (hdata : data.length ≤ MAX_TRANSFER_SIZE)
    (hne : prefixMeta meta data ≠ [])
    (hcap : (prefixMeta meta data).length ≤ 35840) :
    fragment tid data meta = some (frag_list tid (prefixMeta meta data)) ∧
    (∀ L1 L2, List.Perm (L1 ++ L2) (frag_list tid (prefixMeta meta data)) →
      (is_complete (feed_fragments emptyTransfer L1) = true ↔ L2 = []) ∧
      (L2 = [] → reassemble (feed_fragments emptyTransfer L1) =
        some (prefixMeta meta data))) ∧
    (∀ (st : FragmentedTransfer) (idx : Nat), add_fragment st idx [] true =
      { st with is_final_received := true, expected_fragments := some (idx + 1) }) := by
  set d := prefixMeta meta data with hd
  have hL : 1 ≤ d.length := List.length_pos.mpr hne
  have hkey := Nat.div_add_mod (d.length + 139) 140
  have hr : (d.length + 139) % 140 < 140 := Nat.mod_lt _ (by norm_num)
  have hq : frag_total d = (d.length + 139) / 140 := rfl
  have hn1 : 1 ≤ frag_total d := by rw [hq]; omega
  have hn256 : frag_total d ≤ 256 := by rw [hq]; omega
  have hcover : d.length ≤ frag_total d * 140 := by rw [hq]; omega
  refine ⟨?_, ?_, ?_⟩
  · unfold fragment
    rw [← hd]
    rw [if_neg (by simp only [MAX_TRANSFER_SIZE] at hdata ⊢; omega)]
    rw [if_neg (by simp only [MAX_FRAGMENTS]; omega)]
  · intro L1 L2 hperm
    have hfragof : ∀ x ∈ frag_list tid d, ∃ i, i < frag_total d ∧
        x = mkFragment tid (frag_total d) i d := by
      intro x hx
      unfold frag_list at hx
      rw [List.mem_map] at hx
      obtain ⟨i, hi, hxe⟩ := hx
      exact ⟨i, List.mem_range.mp hi, hxe.symm⟩
    have hidxmk : ∀ i, i < frag_total d →
        (mkFragment tid (frag_total d) i d).getD 16 0 = i := by
      intro i hi
      exact mkFragment_getD16 tid d (frag_total d) i (by omega)
    have hL1 : L1.map (fun f => mkFragment tid (frag_total d) (f.getD 16 0) d) = L1 := by
      refine (List.map_congr_left ?_).trans (List.map_id L1)
      intro x hx
      obtain ⟨i, hi, hxe⟩ := hfragof x (hperm.mem_iff.mp (List.mem_append_left L2 hx))
      rw [hxe, hidxmk i hi]
      rfl
    have hIperm : List.Perm
        (L1.map (fun f => f.getD 16 0) ++ L2.map (fun f => f.getD 16 0))
        (List.range (frag_total d)) := by
      have h1 := hperm.map (fun f => f.getD 16 0)
      rw [List.map_append] at h1
      have h2 : (frag_list tid d).map (fun f => f.getD 16 0) =
          List.range (frag_total d) := by
        unfold frag_list
        rw [List.map_map]
        refine (List.map_congr_left ?_).trans (List.map_id _)
        intro i hi
        exact hidxmk i (List.mem_range.mp hi)
      rw [h2] at h1
      exact h1
    have hInodup : (L1.map (fun f => f.getD 16 0) ++
        L2.map (fun f => f.getD 16 0)).Nodup :=
      hIperm.nodup_iff.mpr (List.nodup_range (frag_total d))
    have hI1nodup : (L1.map (fun f => f.getD 16 0)).Nodup := hInodup.of_append_left
    have hI1lt : ∀ i ∈ L1.map (fun f => f.getD 16 0), i < frag_total d := by
      intro i hi
      exact List.mem_range.mp (hIperm.mem_iff.mp (List.mem_append_left _ hi))
    obtain ⟨hk, hl, hlen, hfin, hexp⟩ := feed_inv tid d hne hn256
      (L1.map (fun f => f.getD 16 0)) hI1nodup hI1lt
    have hfeedL1 : (L1.map (fun f => f.getD 16 0)).map
        (fun i => mkFragment tid (frag_total d) i d) = L1 := by
      rw [List.map_map]
      exact hL1
    rw [hfeedL1] at hk hl hlen hfin hexp
    have hlp := hIperm.length_eq
    simp only [List.length_append, List.length_map, List.length_range] at hlp
    constructor
    · unfold is_complete
      rw [hfin, hexp, hlen]
      by_cases hmem : frag_total d - 1 ∈ L1.map (fun f => f.getD 16 0)
      · simp only [hmem, if_true, decide_True, Bool.true_and, List.length_map,
          beq_iff_eq, Option.some.injEq, decide_eq_true_eq]
        constructor
        · intro hc
          rw [← List.length_eq_zero]
          omega
        · intro h2
          have hl20 : L2.length = 0 := by rw [h2]; rfl
          omega
      · simp only [hmem, if_false, decide_False, Bool.false_and]
        constructor
        · intro hc
          simp at hc
        · intro h2
          exfalso
          apply hmem
          have hmr : frag_total d - 1 ∈ List.range (frag_total d) :=
            List.mem_range.mpr (by omega)
          have hmm := hIperm.mem_iff.mpr hmr
          rw [h2] at hmm
          simpa using hmm
    · intro h2
      subst h2
      have hmem : frag_total d - 1 ∈ L1.map (fun f => f.getD 16 0) := by
        have hmr : frag_total d - 1 ∈ List.range (frag_total d) :=
          List.mem_range.mpr (by omega)
        have hmm := hIperm.mem_iff.mpr hmr
        simpa using hmm
      have hall : ∀ i, i < frag_total d → i ∈ L1.map (fun f => f.getD 16 0) := by
        intro i hi
        have hmm := hIperm.mem_iff.mpr (List.mem_range.mpr hi)
        simpa using hmm
      have hcomp : is_complete (feed_fragments emptyTransfer L1) = true := by
        unfold is_complete
        rw [hfin, hexp, hlen]
        simp only [hmem, if_true, decide_True, Bool.true_and, List.length_map,
          beq_iff_eq, Option.some.injEq, decide_eq_true_eq]
        simp only [List.map_nil, List.length_nil] at hlp
        omega
      unfold reassemble
      rw [if_pos hcomp, hexp, if_pos hmem]
      simp only []
      rw [collect_chunks _ d (frag_total d)
        (fun i hi => by rw [hl i, if_pos (hall i hi)])]
      rw [List.take_of_length_le (by simp only [FRAGMENT_DATA_SIZE]; omega)]
  · intro st idx
    rfl

/-- Any 35841-byte payload without metadata makes Fragmenter.fragment fail:
the fragment count 257 exceeds MAX_FRAGMENTS. -/
theorem fragment_too_many (tid data : Bytes) (h : data.length = 35841) :
    fragment tid data none = none := by
  have h2 : prefixMeta none data = data := rfl
  unfold fragment
  rw [h2]
  rw [if_neg (by rw [h]; norm_num [MAX_TRANSFER_SIZE])]
  rw [if_pos (by unfold frag_total; rw [h]; norm_num [MAX_FRAGMENTS, FRAGMENT_DATA_SIZE])]

/-- Counterexample to C6 as stated: a 35841-byte payload is at most 64 KiB
yet Fragmenter.fragment fails, because 256 fragments of 140 bytes cap a
transfer at 35840 bytes. -/
theorem C6_counterexample :
    fragment (List.replicate 16 0) (List.replicate 35841 0) none = none :=
  fragment_too_many (List.replicate 16 0) (List.replicate 35841 0)
    (List.length_replicate ..)

/-- Witness for C6 on a concrete 150-byte payload delivered in reversed
fragment order. -/
theorem C6_fragment_roundtrip_witness :
    (List.replicate 150 5 : Bytes).length ≤ MAX_TRANSFER_SIZE ∧
    prefixMeta none (List.replicate 150 5) ≠ [] ∧
    (prefixMeta none (List.replicate 150 5)).length ≤ 35840 ∧
    reassemble (feed_fragments emptyTransfer
        (frag_list (List.replicate 16 7) (prefixMeta none (List.replicate 150 5))).reverse) =
      some (prefixMeta none (List.replicate 150 5)) := by
  refine ⟨by norm_num [MAX_TRANSFER_SIZE], by simp [prefixMeta],
    by norm_num [prefixMeta], ?_⟩
  have h := (C6_fragment_roundtrip (List.replicate 16 7) (List.replicate 150 5) none
    (by norm_num [MAX_TRANSFER_SIZE]) (by simp [prefixMeta])
    (by norm_num [prefixMeta])).2.1
  have h2 := (h (frag_list (List.replicate 16 7)
      (prefixMeta none (List.replicate 150 5))).reverse [] (by
    rw [List.append_nil]
    exact List.reverse_perm _)).2 rfl
  exact h2

end Mycorrhizal
